import Mathlib

/-!
Verification of the MEF data-provider core (`astrodata/fits.py`) against its
specification.  The Python code is shallowly embedded: each relevant function
is translated into a Lean definition over explicit state, machine lists are
Lean lists, fallible operations return `Except`.  Claims about the code are
then settled as theorems about these definitions.
-/

namespace AstrodataFits

/-- Error taxonomy of the provider layer.  Each constructor corresponds to a
Python exception raised by `fits.py`:
`indexOutOfRange` = `IndexError("Index out of range")`,
`valueError` = a generic `ValueError` (e.g. zero slice step),
`assertionError` = a failed `assert`,
`duplicatePrimary` = `ValueError("Only one Primary HDU allowed")`,
`unsupportedStructure` = `ValueError("I don't know how to write back ...")`. -/
inductive AdError where
  | indexOutOfRange
  | valueError
  | assertionError
  | duplicatePrimary
  | unsupportedStructure
deriving DecidableEq, Repr

/-! ## Python `slice` / `range` semantics

`normalize_indices` (fits.py:303-322) calls the Python builtins
`slice.indices(nitems)` and `range(start, stop, step)`.  These builtins are
part of the language the code is written in, so they are embedded here with
their CPython semantics (`PySlice_GetIndicesEx`). -/

/-- A Python `slice` object: any of the three fields may be `None`. -/
structure SliceArg where
  start : Option Int
  stop : Option Int
  step : Option Int
deriving DecidableEq, Repr

/-- Number of elements of Python `range(start, stop, step)` (`step ≠ 0`). -/
def pythonRangeLen (start stop step : Int) : Nat :=
  if 0 < step then ((stop - start + step - 1) / step).toNat
  else ((start - stop + (-step) - 1) / (-step)).toNat

/-- Python `range(start, stop, step)` as a list, for `step ≠ 0`. -/
def pythonRange (start stop step : Int) : List Int :=
  (List.range (pythonRangeLen start stop step)).map (fun k : Nat => start + step * (k : Int))

/-- CPython clamping of one slice bound: `none` becomes the default; a
negative value is shifted by `n` and clamped below at `lower`; a non-negative
value is clamped above at `upper`. -/
def pyClamp (v : Option Int) (dflt lower upper n : Int) : Int :=
  match v with
  | none => dflt
  | some x => if x < 0 then max (x + n) lower else min x upper

/-- CPython `slice.indices(n)` (for nonzero step): returns the clamped
`(start, stop, step)` triple that `range` is then applied to. -/
def sliceIndices (s : SliceArg) (n : Int) : Int × Int × Int :=
  let step := s.step.getD 1
  let se :=
    if 0 < step then
      (pyClamp s.start 0 0 n n, pyClamp s.stop n 0 n n)
    else
      (pyClamp s.start (n - 1) (-1) (n - 1) n, pyClamp s.stop (-1) (-1) (n - 1) n)
  (se.1, se.2, step)

/-- The three index shapes accepted by `normalize_indices`. -/
inductive IndexArg where
  | int (i : Int)
  | tup (l : List Int)
  | slc (s : SliceArg)
deriving DecidableEq, Repr

/-- `normalize_indices(slc, nitems)` (fits.py:303-322).  A slice is expanded
through `slice.indices`; an int or tuple of ints has negative entries
normalized by adding `nitems`; finally any index `≥ nitems` raises
`IndexError("Index out of range")`. -/
def normalize_indices (slc : IndexArg) (nitems : Nat) : Except AdError (List Int × Bool) :=
  let check : List Int → Bool → Except AdError (List Int × Bool) := fun indices multiple =>
    if indices.any (fun i => i ≥ (nitems : Int)) then .error .indexOutOfRange
    else .ok (indices, multiple)
  match slc with
  | .slc s =>
      if s.step.getD 1 = 0 then .error .valueError
      else
        let t := sliceIndices s (nitems : Int)
        check (pythonRange t.1 t.2.1 t.2.2) true
  | .int i => check [if i ≥ 0 then i else (nitems : Int) + i] false
  | .tup l => check (l.map fun x => if x ≥ 0 then x else (nitems : Int) + x) true

/-! ### Bounds on slice expansion -/

theorem pythonRange_mem_lt_of_pos {start stop step e : Int} (hstep : 0 < step)
    (he : e ∈ pythonRange start stop step) : e < stop := by
  simp only [pythonRange, List.mem_map, List.mem_range] at he
  rcases he with ⟨k, hk, rfl⟩
  unfold pythonRangeLen at hk
  rw [if_pos hstep] at hk
  have hkq : (k : Int) < (stop - start + step - 1) / step := Int.lt_toNat.mp hk
  have h1 : step * ((k : Int) + 1) ≤ step * ((stop - start + step - 1) / step) :=
    mul_le_mul_of_nonneg_left (by omega) (le_of_lt hstep)
  have hmod := Int.ediv_add_emod (stop - start + step - 1) step
  have hnn := Int.emod_nonneg (stop - start + step - 1) (ne_of_gt hstep)
  have h3 : step * ((k : Int) + 1) = step * (k : Int) + step := by ring
  omega

theorem pythonRange_mem_le_of_neg {start stop step e : Int} (hstep : step < 0)
    (he : e ∈ pythonRange start stop step) : e ≤ start := by
  simp only [pythonRange, List.mem_map, List.mem_range] at he
  rcases he with ⟨k, _, rfl⟩
  have hk0 : (0 : Int) ≤ (k : Int) := Int.natCast_nonneg k
  have : step * (k : Int) ≤ 0 := mul_nonpos_of_nonpos_of_nonneg (le_of_lt hstep) hk0
  omega

theorem pyClamp_le_upper {v : Option Int} {dflt lower upper n : Int}
    (h1 : dflt ≤ upper) (h2 : lower ≤ upper) (h3 : n - 1 ≤ upper) :
    pyClamp v dflt lower upper n ≤ upper := by
  cases v with
  | none => simpa [pyClamp] using h1
  | some x =>
      simp only [pyClamp]
      split <;> omega

theorem sliceIndices_stop_le {s : SliceArg} {n : Int} (hn : 0 ≤ n)
    (hpos : 0 < s.step.getD 1) : (sliceIndices s n).2.1 ≤ n := by
  show (if 0 < s.step.getD 1 then _ else _ : Int × Int).2 ≤ n
  rw [if_pos hpos]
  exact pyClamp_le_upper le_rfl hn (by omega)

theorem sliceIndices_start_le {s : SliceArg} {n : Int} (hn : 0 ≤ n)
    (hneg : s.step.getD 1 < 0) : (sliceIndices s n).1 ≤ n - 1 := by
  show (if 0 < s.step.getD 1 then _ else _ : Int × Int).1 ≤ n - 1
  rw [if_neg (by omega)]
  exact pyClamp_le_upper le_rfl (by omega) le_rfl

theorem sliceIndices_step {s : SliceArg} {n : Int} :
    (sliceIndices s n).2.2 = s.step.getD 1 := rfl

/-- Every index produced by expanding a (nonzero-step) slice against `n` items
is strictly below `n`. -/
theorem slice_expansion_lt {s : SliceArg} {n : Nat} (hstep : s.step.getD 1 ≠ 0) :
    ∀ e ∈ pythonRange (sliceIndices s (n : Int)).1 (sliceIndices s (n : Int)).2.1
      (sliceIndices s (n : Int)).2.2, e < (n : Int) := by
  intro e he
  rw [sliceIndices_step] at he
  rcases lt_or_gt_of_ne hstep with hneg | hpos
  · have h1 := pythonRange_mem_le_of_neg hneg he
    have h2 := sliceIndices_start_le (s := s) (n := (n : Int)) (Int.natCast_nonneg n) hneg
    omega
  · have h1 := pythonRange_mem_lt_of_pos hpos he
    have h2 := sliceIndices_stop_le (s := s) (n := (n : Int)) (Int.natCast_nonneg n) hpos
    omega

/-! ## Claims C5 and C10: indexing -/

/-- C5 counterexample: the index `-5` is out of range for a Provider with 3
extensions, yet `normalize_indices` does not fail with IndexOutOfRange: it
normalizes `-5` to `-2` (still negative) and the only range check performed is
`i >= nitems`, so the call succeeds. -/
theorem C5_counterexample :
    normalize_indices (.int (-5)) 3 = .ok ([-2], false) ∧
    normalize_indices (.int (-5)) 3 ≠ .error .indexOutOfRange := by
  refine ⟨rfl, fun h => ?_⟩
  exact Except.noConfusion ((show (Except.ok ([-2], false) : Except AdError (List Int × Bool)) =
    normalize_indices (.int (-5)) 3 from rfl).trans h)

/-- C5 (amended): indexing accepts a single integer, a tuple of integers, or a
slice; a negative integer index is normalized by adding the extension count;
an integer index fails with IndexOutOfRange exactly when its normalized value
is `≥ nitems` (so a negative index below `-nitems`, which stays negative after
normalization, is NOT rejected); `-1` resolves to the last extension; a tuple
whose normalized entries are all `< nitems` succeeds with those entries. -/
theorem C5_normalize_indices_int (n : Nat) (i : Int) :
    (normalize_indices (.int i) n = .error .indexOutOfRange ↔
      (if i ≥ 0 then i else (n : Int) + i) ≥ (n : Int)) ∧
    ((if i ≥ 0 then i else (n : Int) + i) < (n : Int) →
      normalize_indices (.int i) n = .ok ([if i ≥ 0 then i else (n : Int) + i], false)) ∧
    (0 < n → normalize_indices (.int (-1)) n = .ok ([(n : Int) - 1], false)) ∧
    (∀ l : List Int, (∀ x ∈ l, (if x ≥ 0 then x else (n : Int) + x) < (n : Int)) →
      normalize_indices (.tup l) n =
        .ok (l.map (fun x => if x ≥ 0 then x else (n : Int) + x), true)) := by
  refine ⟨?_, ?_, ?_, ?_⟩
  · simp only [normalize_indices, List.any_cons, List.any_nil, Bool.or_false]
    by_cases h : (if i ≥ 0 then i else (n : Int) + i) ≥ (n : Int)
    · simp [h]
    · simp [h]
  · intro h
    simp only [normalize_indices, List.any_cons, List.any_nil, Bool.or_false]
    simp [not_le.2 h, le_of_lt]
  · intro hn
    have hlt : (if (-1 : Int) ≥ 0 then (-1 : Int) else (n : Int) + (-1)) < (n : Int) := by
      rw [if_neg (by omega)]; omega
    simp only [normalize_indices, List.any_cons, List.any_nil, Bool.or_false]
    rw [if_neg (by omega : ¬((-1 : Int) ≥ 0))]
    rw [if_neg (by simp only [decide_eq_true_eq]; omega)]
    have : (n : Int) + (-1) = (n : Int) - 1 := by ring
    rw [this]
  · intro l hl
    simp only [normalize_indices]
    rw [if_neg ?_]
    rw [List.any_eq_true]
    rintro ⟨x, hx, hge⟩
    rcases List.mem_map.1 hx with ⟨y, hy, rfl⟩
    have := hl y hy
    simp only [decide_eq_true_eq] at hge
    omega

/-- C5 witness: on a 3-extension Provider, index `-1` resolves to the last
extension (index 2). -/
theorem C5_normalize_indices_int_witness :
    0 < 3 ∧ normalize_indices (.int (-1)) 3 = .ok ([((3 : Nat) : Int) - 1], false) :=
  ⟨by decide, (C5_normalize_indices_int 3 (-1)).2.2.1 (by decide)⟩

/-- C10: indexing with a slice never fails with IndexOutOfRange: for any slice
of nonzero step the selected extension indices are exactly
`range(*s.indices(n))`, whose elements are all `< n` thanks to the clamping
performed by `slice.indices`; a zero-step slice fails, but with ValueError. -/
theorem C10_slice_indexing_total (s : SliceArg) (n : Nat) :
    (∀ e, normalize_indices (.slc s) n = .error e → e = .valueError) ∧
    (s.step.getD 1 ≠ 0 →
      normalize_indices (.slc s) n =
        .ok (pythonRange (sliceIndices s (n : Int)).1 (sliceIndices s (n : Int)).2.1
          (sliceIndices s (n : Int)).2.2, true)) := by
  by_cases hz : s.step.getD 1 = 0
  · constructor
    · intro e he
      simp only [normalize_indices, hz, if_pos] at he
      exact (Except.error.inj he).symm
    · intro h; exact absurd hz h
  · have hfalse : (pythonRange (sliceIndices s (n : Int)).1 (sliceIndices s (n : Int)).2.1
        (sliceIndices s (n : Int)).2.2).any (fun i => decide (i ≥ (n : Int))) = false := by
      rw [List.any_eq_false]
      intro e he
      simp only [decide_eq_true_eq, not_le, ge_iff_le]
      exact slice_expansion_lt hz e he
    constructor
    · intro e he
      simp only [normalize_indices, hz, if_neg, if_false, hfalse, Bool.false_eq_true,
        reduceIte] at he
      exact Except.noConfusion he
    · intro _
      simp only [normalize_indices, hz, if_false, hfalse, Bool.false_eq_true, reduceIte]

/-- C10 witness: slicing `[-10::2]` on a 3-extension Provider succeeds and
selects indices 0 and 2 (out-of-range slice bounds are clamped). -/
theorem C10_slice_indexing_total_witness :
    normalize_indices (.slc ⟨some (-10), none, some 2⟩) 3 = .ok ([0, 2], true) := by
  rw [(C10_slice_indexing_total ⟨some (-10), none, some 2⟩ 3).2 (by decide)]
  rfl

/-! ## Provider state (claims C1, C2, C6, C9)

`FitsProvider` keeps its header store in `_header` (index 0 = primary header)
and its extension records in `_nddata`; free tables live in `_tables`.
Headers and tables are modelled by object ids (`Nat`). -/

/-- A top-level extension record: the id of its bound header object
(`meta['header']`) and its EXTVER (`meta['ver']`). -/
structure NDExt where
  hd : Nat
  ver : Int
deriving DecidableEq, Repr

/-- The state of a materialized `FitsProvider`. -/
structure FitsProviderSt where
  header : List Nat
  nddata : List NDExt
  tables : List (String × Nat)
deriving DecidableEq, Repr

/-- `FitsProvider._get_max_ver` (fits.py:923-928): one plus the maximum `ver`
of the current records; Python `max` over an empty sequence raises ValueError,
which the code catches to return 1. -/
def get_max_ver (nds : List NDExt) : Int :=
  match nds.map (fun nd => nd.ver) with
  | [] => 1
  | v :: vs => vs.foldl max v + 1

/-- `FitsProvider._reset_ver` (fits.py:930-950) applied to the record being
appended: its `ver` (and its header's EXTVER) becomes `_get_max_ver()`,
computed over the records present before the append. -/
def reset_ver (nds : List NDExt) (nd : NDExt) : NDExt :=
  { nd with ver := get_max_ver nds }

/-- `FitsProvider._append_nddata` (fits.py:1292-1315) for a record whose
header carries the default extension name, with the default `reset_ver=True`:
if the record's header object is already in the header store
(`self.header.index(hd)`), the code asserts that the header position matches
the end of `_nddata` and appends only the record; if the header is absent
(`list.index` raises ValueError) it is appended to the store, and the record —
with its `ver` reassigned by `_reset_ver` — is appended to `_nddata`. -/
def append_nddata (p : FitsProviderSt) (nd : NDExt) : Except AdError FitsProviderSt :=
  if nd.hd ∈ p.header then
    if (p.header.indexOf nd.hd : Int) - 1 = (p.nddata.length : Int) then
      .ok { p with nddata := p.nddata ++ [reset_ver p.nddata nd] }
    else .error .assertionError
  else
    .ok { p with header := p.header ++ [nd.hd],
                 nddata := p.nddata ++ [reset_ver p.nddata nd] }

/-- Python `del lst[i]`, accepting negative positions. -/
def pyDelAt {α : Type} (l : List α) (i : Int) : List α :=
  l.eraseIdx (if i < 0 then ((l.length : Int) + i).toNat else i.toNat)

/-- `FitsProvider.__delitem__` (fits.py:860-867): after the range check
against `nitems = len(self._header) - 1`, the code runs
`del self._header[idx + 1]` and `del self._nddata[idx]`. -/
def delitem (p : FitsProviderSt) (idx : Int) : Except AdError FitsProviderSt :=
  if idx ≥ (p.header.length : Int) - 1 ∨ idx < -((p.header.length : Int) - 1) then
    .error .indexOutOfRange
  else
    .ok { p with header := pyDelAt p.header (idx + 1), nddata := pyDelAt p.nddata idx }

/-- `FitsProvider.__getitem__` (fits.py:854-858): normalizes the index against
`len(self._header) - 1` and wraps the resulting mapping in a proxy.  The
provider state is returned alongside to make explicit that slicing leaves it
untouched. -/
def getitem (p : FitsProviderSt) (slc : IndexArg) :
    Except AdError (FitsProviderSt × (List Int × Bool)) :=
  match normalize_indices slc (p.header.length - 1) with
  | .error e => .error e
  | .ok m => .ok (p, m)

/-- The inputs accepted by the public `append`. -/
inductive ExtInput where
  | primaryHDU (hd : Nat)
  | imageHDU (hd : Nat)
deriving DecidableEq, Repr

/-- `FitsProvider.append` (fits.py:1366-1374): the public entry point refuses
any `PrimaryHDU` with `ValueError("Only one Primary HDU allowed")` before
dispatching anything; a default-named `ImageHDU` flows through
`_append_imagehdu`/`_process_pixel_plane` into `_append_nddata` (the initial
`ver` of the processed record is irrelevant: it is reassigned there). -/
def append_public (p : FitsProviderSt) (ext : ExtInput) : Except AdError FitsProviderSt :=
  match ext with
  | .primaryHDU _ => .error .duplicatePrimary
  | .imageHDU hd => append_nddata p ⟨hd, 0⟩

/-! ### Claim C1 -/

/-- C1: for every materialized Provider satisfying the header/extension
lockstep invariant `len(headers) = len(extensions) + 1`, the invariant still
holds after every successful top-level append (`_append_nddata`), after every
successful deletion by index (`__delitem__`, which removes one header entry
and one record), and after every slicing operation (`__getitem__`, which does
not mutate the provider at all). -/
theorem C1_header_nddata_lockstep (p : FitsProviderSt) (nd : NDExt) (idx : Int)
    (slc : IndexArg) (hinv : p.header.length = p.nddata.length + 1) :
    (∀ q, append_nddata p nd = .ok q → q.header.length = q.nddata.length + 1) ∧
    (∀ q, delitem p idx = .ok q → q.header.length = q.nddata.length + 1) ∧
    (∀ q m, getitem p slc = .ok (q, m) → q.header.length = q.nddata.length + 1) := by
  refine ⟨?_, ?_, ?_⟩
  · intro q hq
    unfold append_nddata at hq
    by_cases hmem : nd.hd ∈ p.header
    · rw [if_pos hmem] at hq
      have hidx : p.header.indexOf nd.hd < p.header.length := List.indexOf_lt_length.2 hmem
      rw [if_neg (by omega)] at hq
      exact Except.noConfusion hq
    · rw [if_neg hmem] at hq
      cases hq
      simp only [List.length_append, List.length_cons, List.length_nil]
      omega
  · intro q hq
    unfold delitem at hq
    by_cases hrange : idx ≥ (p.header.length : Int) - 1 ∨ idx < -((p.header.length : Int) - 1)
    · rw [if_pos hrange] at hq
      exact Except.noConfusion hq
    · rw [if_neg hrange] at hq
      cases hq
      simp only [pyDelAt, List.length_eraseIdx]
      split_ifs <;> omega
  · intro q m hq
    unfold getitem at hq
    cases hnorm : normalize_indices slc (p.header.length - 1) with
    | error e => rw [hnorm] at hq; exact Except.noConfusion hq
    | ok v =>
        rw [hnorm] at hq
        cases hq
        exact hinv

/-- C1 witness: appending a fresh record to a one-extension provider keeps
`len(headers) = len(extensions) + 1` (both reach 3 headers / 2 records). -/
theorem C1_header_nddata_lockstep_witness :
    (⟨[10, 11, 12], [⟨11, 1⟩, ⟨12, 2⟩], []⟩ : FitsProviderSt).header.length =
      (⟨[10, 11, 12], [⟨11, 1⟩, ⟨12, 2⟩], []⟩ : FitsProviderSt).nddata.length + 1 :=
  (C1_header_nddata_lockstep ⟨[10, 11], [⟨11, 1⟩], []⟩ ⟨12, 7⟩ 0 (.int 0) (by decide)).1
    ⟨[10, 11, 12], [⟨11, 1⟩, ⟨12, 2⟩], []⟩ (by rfl)

/-! ### Claim C2 -/

theorem le_foldl_max (v : Int) (vs : List Int) : ∀ x ∈ v :: vs, x ≤ vs.foldl max v := by
  induction vs generalizing v with
  | nil =>
      intro x hx
      rw [List.mem_singleton] at hx
      simp [hx]
  | cons w ws ih =>
      intro x hx
      simp only [List.foldl_cons]
      rcases List.mem_cons.1 hx with rfl | hx2
      · exact le_trans (le_max_left x w) (ih (max x w) _ (List.mem_cons_self _ _))
      · rcases List.mem_cons.1 hx2 with rfl | hx3
        · exact le_trans (le_max_right v x) (ih (max v x) _ (List.mem_cons_self _ _))
        · exact ih (max v w) x (List.mem_cons.2 (Or.inr hx3))

/-- Every `ver` present before an append is strictly below `_get_max_ver()`. -/
theorem lt_get_max_ver (nds : List NDExt) :
    ∀ v ∈ nds.map (fun x => x.ver), v < get_max_ver nds := by
  intro v hv
  unfold get_max_ver
  cases hmap : nds.map (fun x => x.ver) with
  | nil => rw [hmap] at hv; exact absurd hv (List.not_mem_nil v)
  | cons w ws =>
      rw [hmap] at hv
      show v < ws.foldl max w + 1
      have := le_foldl_max w ws v hv
      omega

theorem foldl_max_mem (v : Int) (vs : List Int) : vs.foldl max v ∈ v :: vs := by
  induction vs generalizing v with
  | nil => simp
  | cons w ws ih =>
      simp only [List.foldl_cons]
      rcases List.mem_cons.1 (ih (max v w)) with h1 | h1
      · rw [h1]
        rcases max_choice v w with hc | hc <;> rw [hc]
        · exact List.mem_cons_self _ _
        · exact List.mem_cons.2 (Or.inr (List.mem_cons_self _ _))
      · exact List.mem_cons.2 (Or.inr (List.mem_cons.2 (Or.inr h1)))

/-- C2: appending a top-level record through `_append_nddata` (no explicit
still-valid version: `_reset_ver` runs) preserves pairwise distinctness of the
EXTVERs and assigns the new record `ver = _get_max_ver()`, which is 1 on an
empty provider and otherwise `max(existing vers) + 1` (strictly above every
existing ver, and exactly one more than some existing ver). -/
theorem C2_extver_unique_and_reset (p : FitsProviderSt) (nd : NDExt) (q : FitsProviderSt)
    (hdist : (p.nddata.map (fun x => x.ver)).Pairwise (· ≠ ·))
    (happ : append_nddata p nd = .ok q) :
    (q.nddata.map (fun x => x.ver)).Pairwise (· ≠ ·) ∧
    q.nddata.map (fun x => x.ver) = p.nddata.map (fun x => x.ver) ++ [get_max_ver p.nddata] ∧
    (p.nddata = [] → get_max_ver p.nddata = 1) ∧
    (∀ v ∈ p.nddata.map (fun x => x.ver), v < get_max_ver p.nddata) ∧
    (p.nddata ≠ [] → get_max_ver p.nddata - 1 ∈ p.nddata.map (fun x => x.ver)) := by
  have hq2 : q.nddata = p.nddata ++ [reset_ver p.nddata nd] := by
    unfold append_nddata at happ
    by_cases hmem : nd.hd ∈ p.header
    · rw [if_pos hmem] at happ
      by_cases hpos : (p.header.indexOf nd.hd : Int) - 1 = (p.nddata.length : Int)
      · rw [if_pos hpos] at happ; cases happ; rfl
      · rw [if_neg hpos] at happ; exact Except.noConfusion happ
    · rw [if_neg hmem] at happ; cases happ; rfl
  have hmapq : q.nddata.map (fun x => x.ver) =
      p.nddata.map (fun x => x.ver) ++ [get_max_ver p.nddata] := by
    rw [hq2, List.map_append]; rfl
  refine ⟨?_, hmapq, ?_, lt_get_max_ver p.nddata, ?_⟩
  · rw [hmapq, List.pairwise_append]
    refine ⟨hdist, List.pairwise_singleton _ _, ?_⟩
    intro a ha b hb
    rw [List.mem_singleton] at hb
    subst hb
    exact ne_of_lt (lt_get_max_ver p.nddata a ha)
  · intro h; rw [h]; rfl
  · intro hne
    unfold get_max_ver
    cases hmap : p.nddata.map (fun x => x.ver) with
    | nil => exact absurd (List.map_eq_nil_iff.1 hmap) hne
    | cons w ws =>
        show ws.foldl max w + 1 - 1 ∈ w :: ws
        simp only [add_sub_cancel_right]
        exact foldl_max_mem w ws

/-- C2 witness: appending to a provider whose single record has ver 5 gives
the new record ver 6 = max + 1. -/
theorem C2_extver_unique_and_reset_witness :
    (⟨[10, 11, 12], [⟨11, 5⟩, ⟨12, 6⟩], []⟩ : FitsProviderSt).nddata.map (fun x => x.ver) =
      (⟨[10, 11], [⟨11, 5⟩], []⟩ : FitsProviderSt).nddata.map (fun x => x.ver) ++
        [get_max_ver (⟨[10, 11], [⟨11, 5⟩], []⟩ : FitsProviderSt).nddata] :=
  (C2_extver_unique_and_reset ⟨[10, 11], [⟨11, 5⟩], []⟩ ⟨12, 0⟩
    ⟨[10, 11, 12], [⟨11, 5⟩, ⟨12, 6⟩], []⟩ (by decide) (by rfl)).2.1

/-! ### Claim C6 -/

/-- C6: evaluating `__delitem__` at the failing input `idx = -1` on a provider
with primary header 10 and extension headers 11, 12: the code runs
`del self._header[-1 + 1]`, i.e. it deletes the PRIMARY header (position 0)
while `del self._nddata[-1]` removes the LAST extension record — not the
header at the corresponding position 2 that the claim (and the spec's
atomicity requirement) demands. -/
theorem C6_delitem_negative_index_divergence :
    delitem ⟨[10, 11, 12], [⟨11, 1⟩, ⟨12, 2⟩], []⟩ (-1) =
      .ok ⟨[11, 12], [⟨11, 1⟩], []⟩ := by rfl

/-! ### Claim C9 -/

/-- C9: a Provider always owns a primary header (header store index 0), so
appending a further primary-type unit through the public `append` fails with
the DuplicatePrimary error (`ValueError("Only one Primary HDU allowed")`),
before any dispatch takes place. -/
theorem C9_append_primary_rejected (p : FitsProviderSt) (h : Nat)
    (_hprim : p.header ≠ []) :
    append_public p (.primaryHDU h) = .error .duplicatePrimary := rfl

/-- C9 witness: appending a primary HDU to a provider holding a primary header
and one extension fails with DuplicatePrimary. -/
theorem C9_append_primary_rejected_witness :
    append_public ⟨[10, 11], [⟨11, 1⟩], []⟩ (.primaryHDU 99) = .error .duplicatePrimary :=
  C9_append_primary_rejected ⟨[10, 11], [⟨11, 1⟩], []⟩ 99 (by decide)

/-! ## Claim C3: variance stored as standard deviation -/

/-- `new_variance_uncertainty_instance` (fits.py:331-335): builds
`StdDevUncertainty(np.sqrt(array))`, so the stored array is the elementwise
square root of the variance handed in.  Pixel arrays are modelled as lists of
reals (the float computation, to float precision). -/
noncomputable def new_variance_uncertainty_instance (array : List ℝ) : List ℝ :=
  array.map Real.sqrt

/-- The uncertainty slot of an extension record. -/
structure NDUncert where
  uncertainty : Option (List ℝ)

/-- `FitsProvider._append_array` with `add_to` given and `name == 'VAR'`
(fits.py:1260-1264): the value is reinterpreted as variance and attached to
the target record as a standard-deviation uncertainty. -/
noncomputable def append_var_to (add_to : NDUncert) (data : List ℝ) : NDUncert :=
  { add_to with uncertainty := some (new_variance_uncertainty_instance data) }

/-- The `variance` read (fits.py:525-534 and 1183-1190): `un.array ** 2` when
an uncertainty is present, `None` otherwise. -/
def variance_read (nd : NDUncert) : Option (List ℝ) :=
  nd.uncertainty.map (fun u => u.map (fun x => x ^ 2))

/-- C3: attaching a non-negative array under the uncertainty name 'VAR'
stores its elementwise square root, and reading the record's variance squares
the stored array, so the read-back variance is exactly the original array. -/
theorem C3_variance_round_trip (nd : NDUncert) (data : List ℝ)
    (hnn : ∀ x ∈ data, 0 ≤ x) :
    variance_read (append_var_to nd data) = some data := by
  simp only [variance_read, append_var_to, new_variance_uncertainty_instance,
    Option.map_some, List.map_map, Option.some.injEq]
  have h : data.map (fun x => Real.sqrt x ^ 2) = data.map id :=
    List.map_congr_left (fun x hx => Real.sq_sqrt (hnn x hx))
  simpa using h

/-- C3 witness: the variance vector `[0, 1, 4]` survives the store/read
round trip. -/
theorem C3_variance_round_trip_witness :
    variance_read (append_var_to ⟨none⟩ [0, 1, 4]) = some [0, 1, 4] :=
  C3_variance_round_trip ⟨none⟩ [0, 1, 4] (by
    intro x hx
    simp only [List.mem_cons, List.not_mem_nil, or_false] at hx
    rcases hx with rfl | rfl | rfl <;> norm_num)

/-! ## Claim C8: keyword fan-out on the header store

Headers are modelled as association lists keyword → value (astropy `Header`
lookup, first match wins); card values are modelled as integers. -/

/-- `header[key]` lookup. -/
def card_lookup (h : List (String × Int)) (key : String) : Option Int :=
  (h.find? (fun c => c.1 == key)).map (fun c => c.2)

/-- Result of a fan-out read: a bare value for a single-Header view, else one
value per bound header (`none` models Python `None`). -/
inductive KwResult where
  | one (v : Option Int)
  | many (vs : List (Option Int))
deriving DecidableEq, Repr

/-- `FitsKeywordManipulator._ret_ext` (fits.py:65-69). -/
def ret_ext (single : Bool) (nheaders : Nat) (vs : List (Option Int)) : KwResult :=
  if single = true ∧ nheaders = 1 then .one (vs.headD none) else .many vs

/-- The KeyError raised by extension-mode `__getitem__` (fits.py:108-112):
it carries `missing_at` (positions lacking the keyword) and `values` (the
partial result vector, `None` at the missing positions). -/
structure KwError where
  missing_at : List Nat
  values : List (Option Int)
deriving DecidableEq, Repr

/-- The `for n, header in enumerate(self._headers)` loop of `__getitem__`
(fits.py:101-107), started at position `n`: returns `(missing_at, ret)`. -/
def collect_kw (headers : List (List (String × Int))) (key : String) (n : Nat) :
    List Nat × List (Option Int) :=
  match headers with
  | [] => ([], [])
  | h :: t =>
      let rest := collect_kw t key (n + 1)
      match card_lookup h key with
      | some v => (rest.1, some v :: rest.2)
      | none => (n :: rest.1, none :: rest.2)

/-- `FitsKeywordManipulator.__getitem__` in extension mode (fits.py:96-115). -/
def kw_getitem (headers : List (List (String × Int))) (single : Bool) (key : String) :
    Except KwError KwResult :=
  let mr := collect_kw headers key 0
  if mr.1 = [] then .ok (ret_ext single headers.length mr.2)
  else .error ⟨mr.1, mr.2⟩

/-- The `for n in err.missing_at: vals[n] = default` loop of `get`
(fits.py:123-124). -/
def subst_missing (vals : List (Option Int)) (missing : List Nat) (dflt : Option Int) :
    List (Option Int) :=
  missing.foldl (fun vs n => vs.set n dflt) vals

/-- `FitsKeywordManipulator.get` in extension mode (fits.py:117-127). -/
def kw_get (headers : List (List (String × Int))) (single : Bool) (key : String)
    (dflt : Option Int) : KwResult :=
  match kw_getitem headers single key with
  | .ok r => r
  | .error e => ret_ext single headers.length (subst_missing e.values e.missing_at dflt)

theorem collect_kw_ret (headers : List (List (String × Int))) (key : String) (n : Nat) :
    (collect_kw headers key n).2 = headers.map (fun h => card_lookup h key) := by
  induction headers generalizing n with
  | nil => rfl
  | cons h t ih =>
      simp only [collect_kw, List.map_cons]
      cases hl : card_lookup h key <;> simp [hl, ih (n + 1)]

theorem collect_kw_missing (headers : List (List (String × Int))) (key : String) (n i : Nat) :
    i ∈ (collect_kw headers key n).1 ↔
      ∃ j, i = n + j ∧ (headers.map (fun h => card_lookup h key))[j]? = some none := by
  induction headers generalizing n i with
  | nil => simp [collect_kw]
  | cons h t ih =>
      simp only [collect_kw, List.map_cons]
      cases hl : card_lookup h key with
      | some v =>
          simp only
          rw [ih (n + 1) i]
          constructor
          · rintro ⟨j, rfl, hj⟩
            exact ⟨j + 1, by omega, by simpa using hj⟩
          · rintro ⟨j, rfl, hj⟩
            cases j with
            | zero => simp [hl] at hj
            | succ j' => exact ⟨j', by omega, by simpa using hj⟩
      | none =>
          simp only [List.mem_cons]
          rw [ih (n + 1) i]
          constructor
          · rintro (rfl | ⟨j, rfl, hj⟩)
            · exact ⟨0, by omega, by simp⟩
            · exact ⟨j + 1, by omega, by simpa using hj⟩
          · rintro ⟨j, rfl, hj⟩
            cases j with
            | zero => exact Or.inl (by omega)
            | succ j' => exact Or.inr ⟨j', by omega, by simpa using hj⟩

theorem subst_missing_getElem (vals : List (Option Int)) (missing : List Nat)
    (dflt : Option Int) (i : Nat) :
    (subst_missing vals missing dflt)[i]? =
      if i ∈ missing ∧ i < vals.length then some dflt else vals[i]? := by
  induction missing generalizing vals with
  | nil => simp [subst_missing]
  | cons m ms ih =>
      show (subst_missing (vals.set m dflt) ms dflt)[i]? = _
      rw [ih (vals.set m dflt), List.length_set]
      by_cases hlt : i < vals.length
      · by_cases hm : i ∈ ms
        · rw [if_pos ⟨hm, hlt⟩, if_pos ⟨List.mem_cons.2 (Or.inr hm), hlt⟩]
        · rw [if_neg (fun hc => hm hc.1), List.getElem?_set]
          by_cases hmi : m = i
          · subst hmi
            rw [if_pos rfl, if_pos hlt, if_pos ⟨List.mem_cons.2 (Or.inl rfl), hlt⟩]
          · rw [if_neg hmi, if_neg (by
              rintro ⟨hc, -⟩
              rcases List.mem_cons.1 hc with rfl | hc2
              · exact hmi rfl
              · exact hm hc2)]
      · rw [if_neg (fun hc => hlt hc.2), if_neg (fun hc => hlt hc.2), List.getElem?_set]
        by_cases hmi : m = i
        · subst hmi
          rw [if_pos rfl, if_neg (by omega)]
          exact (List.getElem?_eq_none (by omega)).symm
        · rw [if_neg hmi]

/-- When the substituted positions are exactly the `none` positions, the
substitution loop computes the pointwise `Option.or` with the default. -/
theorem subst_missing_eq_map (vals : List (Option Int)) (missing : List Nat)
    (dflt : Option Int)
    (hmiss : ∀ i, i ∈ missing ↔ vals[i]? = some none) :
    subst_missing vals missing dflt = vals.map (fun v => v.or dflt) := by
  apply List.ext_getElem?
  intro i
  rw [subst_missing_getElem, List.getElem?_map]
  by_cases hi : i < vals.length
  · cases hv : vals[i]? with
    | none =>
        rw [List.getElem?_eq_getElem hi] at hv
        exact Option.noConfusion hv
    | some v =>
        cases v with
        | none =>
            rw [if_pos ⟨(hmiss i).2 hv, hi⟩]
            rfl
        | some x =>
            rw [if_neg (by
              rintro ⟨hmem, -⟩
              rw [(hmiss i).1 hmem] at hv
              exact Option.noConfusion (Option.some.inj hv))]
            rfl
  · have hv : vals[i]? = none := List.getElem?_eq_none (by omega)
    rw [if_neg (by rintro ⟨-, h⟩; omega), hv]
    rfl

/-- C8: the extension-mode get-one-key operation returns a bare value on a
single-Header view and the ordered per-header vector otherwise; when the key
is missing from at least one bound header it fails with the KeyMissing error
carrying exactly the missing positions and the partial result vector (`None`
at those positions); the get-with-default variant instead returns the vector
with the default substituted at exactly the missing positions. -/
theorem C8_keyword_fanout (hs : List (List (String × Int))) (single : Bool)
    (key : String) (dflt : Option Int) :
    (∀ i, i ∈ (collect_kw hs key 0).1 ↔
      (hs.map (fun h => card_lookup h key))[i]? = some none) ∧
    ((collect_kw hs key 0).1 = [] →
      kw_getitem hs single key =
        .ok (ret_ext single hs.length (hs.map (fun h => card_lookup h key)))) ∧
    (single = true → hs.length = 1 →
      ∀ vs : List (Option Int), ret_ext single hs.length vs = .one (vs.headD none)) ∧
    (¬(single = true ∧ hs.length = 1) →
      ∀ vs : List (Option Int), ret_ext single hs.length vs = .many vs) ∧
    ((collect_kw hs key 0).1 ≠ [] →
      kw_getitem hs single key =
        .error ⟨(collect_kw hs key 0).1, hs.map (fun h => card_lookup h key)⟩) ∧
    ((collect_kw hs key 0).1 ≠ [] →
      kw_get hs single key dflt =
        ret_ext single hs.length
          ((hs.map (fun h => card_lookup h key)).map (fun v => v.or dflt))) := by
  have hmiss : ∀ i, i ∈ (collect_kw hs key 0).1 ↔
      (hs.map (fun h => card_lookup h key))[i]? = some none := by
    intro i
    rw [collect_kw_missing hs key 0 i]
    constructor
    · rintro ⟨j, rfl, hj⟩; simpa using hj
    · intro h; exact ⟨i, by omega, h⟩
  refine ⟨hmiss, ?_, ?_, ?_, ?_, ?_⟩
  · intro hempty
    unfold kw_getitem
    rw [if_pos hempty, collect_kw_ret]
  · intro hsingle hlen vs
    unfold ret_ext
    rw [if_pos ⟨hsingle, hlen⟩]
  · intro hnot vs
    unfold ret_ext
    rw [if_neg hnot]
  · intro hne
    unfold kw_getitem
    rw [if_neg hne, collect_kw_ret]
  · intro hne
    unfold kw_get kw_getitem
    rw [if_neg hne]
    simp only
    rw [collect_kw_ret,
      subst_missing_eq_map (hs.map (fun h => card_lookup h key))
        ((collect_kw hs key 0).1) dflt hmiss]

/-- C8 witness: two headers, the key present only in the first: `__getitem__`
fails carrying position 1 and the partial vector, and `get` substitutes the
default exactly there. -/
theorem C8_keyword_fanout_witness :
    kw_getitem [[("GAIN", 7)], []] false "GAIN" = .error ⟨[1], [some 7, none]⟩ ∧
    kw_get [[("GAIN", 7)], []] false "GAIN" (some 3) = .many [some 7, some 3] := by
  have h := C8_keyword_fanout [[("GAIN", 7)], []] false "GAIN" (some 3)
  refine ⟨?_, ?_⟩
  · have := h.2.2.2.2.1 (by decide)
    rw [this]; rfl
  · have := h.2.2.2.2.2 (by decide)
    rw [this]; rfl

/-! ## Claim C4: serialization order (`FitsProvider.to_hdulist`)

Pixel payloads are modelled as lists of rationals, tables and headers by
object ids.  `to_hdulist` below is the accumulator-style translation of the
sequential `hlst.append(...)` loop of fits.py:1116-1146; `to_hdulist_spec` is
written from the specification's description of the output order, and the
claim is settled by proving the two equal. -/

/-- A payload of an extension record's `other` mapping. -/
inductive OtherPayload where
  | tbl (t : Nat)
  | arr (a : List ℚ)
  | ndd (d : List ℚ)
  | unknown
deriving DecidableEq, Repr

/-- An extension record as `to_hdulist` consumes it. -/
structure ExtMeta where
  hd : Nat
  data : List ℚ
  uncertainty : Option (List ℚ)
  mask : Option (List ℚ)
  other : List (String × OtherPayload)
  other_header : List (String × Nat)
deriving DecidableEq, Repr

/-- A provider ready for serialization. -/
structure Prov4 where
  header : List Nat
  nddata : List ExtMeta
  tables : List (String × Nat)
deriving DecidableEq, Repr

/-- An HDU of the serialized output. -/
inductive OutUnit where
  | primary (hd : Nat)
  | image (data : List ℚ) (hd : Nat) (nm : Option String)
  | bintable (t : Nat)
deriving DecidableEq, Repr

/-- `meta['other_header'].get(name, meta['header'])` (fits.py:1136). -/
def other_header_get (ohs : List (String × Nat)) (nm : String) (dflt : Nat) : Nat :=
  match ohs.find? (fun c => c.1 == nm) with
  | some c => c.2
  | none => dflt

/-- The unit emitted for a present uncertainty (fits.py:1127-1128): the stored
standard deviation squared, under the name 'VAR'. -/
def var_units (m : ExtMeta) : List OutUnit :=
  match m.uncertainty with
  | some u => [.image (u.map (fun x => x * x)) m.hd (some "VAR")]
  | none => []

/-- The unit emitted for a present mask (fits.py:1129-1130). -/
def mask_units (m : ExtMeta) : List OutUnit :=
  match m.mask with
  | some mk => [.image mk m.hd (some "DQ")]
  | none => []

/-- `sorted(self._tables.items())` (fits.py:1143): table entries sorted by
name. -/
def sorted_tables (ts : List (String × Nat)) : List (String × Nat) :=
  List.insertionSort (fun a b => a.1 ≤ b.1) ts

/-- The `for name, other in meta.get('other', {}).items()` loop of
`to_hdulist` (fits.py:1132-1140), appending to the accumulated HDU list:
tables become bintable units; arrays become image units under the most
specific header (falling back to the record's); nested NDData objects are
flattened to their raw data; anything else aborts with
`ValueError`/UnsupportedStructure. -/
def serialize_others (m : ExtMeta) (os : List (String × OtherPayload))
    (acc : List OutUnit) : Except AdError (List OutUnit) :=
  match os with
  | [] => .ok acc
  | (nm, pl) :: rest =>
      match pl with
      | .tbl t => serialize_others m rest (acc ++ [.bintable t])
      | .arr a =>
          serialize_others m rest
            (acc ++ [.image a (other_header_get m.other_header nm m.hd) (some nm)])
      | .ndd d => serialize_others m rest (acc ++ [.image d m.hd none])
      | .unknown => .error .unsupportedStructure

/-- The `for ext in self._nddata` loop of `to_hdulist` (fits.py:1122-1140):
for each record, append the science image, then the variance image if an
uncertainty is present, then the mask image if present, then the `other`
entries. -/
def serialize_exts (exts : List ExtMeta) (acc : List OutUnit) :
    Except AdError (List OutUnit) :=
  match exts with
  | [] => .ok acc
  | m :: rest =>
      match serialize_others m m.other
          (acc ++ [.image m.data m.hd none] ++ var_units m ++ mask_units m) with
      | .error e => .error e
      | .ok acc4 => serialize_exts rest acc4

/-- `FitsProvider.to_hdulist` (fits.py:1116-1146): primary HDU first, then the
per-record units, then the free tables sorted by name. -/
def to_hdulist (p : Prov4) : Except AdError (List OutUnit) :=
  match serialize_exts p.nddata [.primary (p.header.headD 0)] with
  | .error e => .error e
  | .ok units => .ok (units ++ (sorted_tables p.tables).map (fun nt => OutUnit.bintable nt.2))

/-- Spec-side rendering of one `other` entry sequence, in insertion order. -/
def spec_map_others (m : ExtMeta) :
    List (String × OtherPayload) → Except AdError (List OutUnit)
  | [] => .ok []
  | (nm, pl) :: rest =>
      match pl with
      | .tbl t => (spec_map_others m rest).map (fun us => .bintable t :: us)
      | .arr a =>
          (spec_map_others m rest).map
            (fun us => .image a (other_header_get m.other_header nm m.hd) (some nm) :: us)
      | .ndd d => (spec_map_others m rest).map (fun us => .image d m.hd none :: us)
      | .unknown => .error .unsupportedStructure

/-- Spec-side units of a single extension record: science pixel unit, then
the uncertainty re-expressed as variance (if present), then the mask (if
present), then the `other` entries in insertion order. -/
def spec_record_units (m : ExtMeta) : Except AdError (List OutUnit) :=
  (spec_map_others m m.other).map
    (fun others => [.image m.data m.hd none] ++ var_units m ++ mask_units m ++ others)

/-- Spec-side units of the extension record sequence, in order. -/
def spec_exts_units : List ExtMeta → Except AdError (List OutUnit)
  | [] => .ok []
  | m :: rest =>
      match spec_record_units m with
      | .error e => .error e
      | .ok us =>
          match spec_exts_units rest with
          | .error e => .error e
          | .ok vs => .ok (us ++ vs)

/-- Modelled from the spec (section 4.6 wording): the primary unit first, then
the per-record units in `extensions` order, and finally all free-floating
tables sorted by name. -/
def to_hdulist_spec (p : Prov4) : Except AdError (List OutUnit) :=
  match spec_exts_units p.nddata with
  | .error e => .error e
  | .ok extUnits =>
      .ok ([OutUnit.primary (p.header.headD 0)] ++ extUnits
        ++ (sorted_tables p.tables).map (fun nt => OutUnit.bintable nt.2))

theorem serialize_others_eq (m : ExtMeta) (os : List (String × OtherPayload))
    (acc : List OutUnit) :
    serialize_others m os acc = (spec_map_others m os).map (fun us => acc ++ us) := by
  induction os generalizing acc with
  | nil => simp [serialize_others, spec_map_others, Except.map]
  | cons np rest ih =>
      obtain ⟨nm, pl⟩ := np
      cases pl with
      | tbl t =>
          show serialize_others m rest _ = _
          rw [ih]
          cases h : spec_map_others m rest <;> simp [Except.map, spec_map_others, h]
      | arr a =>
          show serialize_others m rest _ = _
          rw [ih]
          cases h : spec_map_others m rest <;> simp [Except.map, spec_map_others, h]
      | ndd d =>
          show serialize_others m rest _ = _
          rw [ih]
          cases h : spec_map_others m rest <;> simp [Except.map, spec_map_others, h]
      | unknown => simp [serialize_others, spec_map_others, Except.map]

theorem serialize_exts_eq (exts : List ExtMeta) (acc : List OutUnit) :
    serialize_exts exts acc = (spec_exts_units exts).map (fun us => acc ++ us) := by
  induction exts generalizing acc with
  | nil => simp [serialize_exts, spec_exts_units, Except.map]
  | cons m rest ih =>
      simp only [serialize_exts]
      rw [serialize_others_eq]
      cases ho : spec_map_others m m.other with
      | error e =>
          simp [Except.map, spec_exts_units, spec_record_units, ho]
      | ok others =>
          simp only [Except.map]
          rw [ih]
          cases hr : spec_exts_units rest with
          | error e =>
              simp [Except.map, spec_exts_units, spec_record_units, ho, hr]
          | ok vs =>
              simp [Except.map, spec_exts_units, spec_record_units, ho, hr,
                List.append_assoc]

/-- C4: serialization emits units in exactly the deterministic order the
specification describes: primary unit first; per extension record the science
unit, the variance unit (squared standard deviation) if present, the mask
unit if present, then the `other` entries in insertion order (tables as
bintables, arrays under the most specific header with fallback to the
record's, nested NDData flattened to raw data); finally the free tables
sorted by name — and an unrecognized `other` payload aborts the whole
serialization. -/
theorem C4_to_hdulist_order (p : Prov4) : to_hdulist p = to_hdulist_spec p := by
  unfold to_hdulist to_hdulist_spec
  rw [serialize_exts_eq]
  cases h : spec_exts_units p.nddata with
  | error e => simp [Except.map]
  | ok us => simp [Except.map]

/-! ## Claim C7: loader normalization (`FitsLoader._prepare_hdulist`)

Units are modelled by their kind (primary / image / table-like), EXTNAME and
EXTVER; a missing keyword is `none`. -/

inductive HKind where
  | primaryK
  | imageK
  | tableK
deriving DecidableEq, Repr

structure HUnit where
  kind : HKind
  nm : Option String
  ver : Option Int
deriving DecidableEq, Repr

/-- `FitsProvider.default_extension` (fits.py:604). -/
def default_extension : String := "SCI"

/-- `ev not in (-1, None)`: the EXTVER is present and not the -1 sentinel. -/
def validVer : Option Int → Bool
  | none => false
  | some v => v != -1

/-- A unit the first pass of `_prepare_hdulist` (fits.py:1452-1461) keeps:
valid EXTVER and an EXTNAME, or a primary HDU. -/
def recognized1 (u : HUnit) : Bool :=
  (validVer u.ver && u.nm.isSome) || u.kind == .primaryK

/-- `highest_ver` after the first pass: the maximum EXTVER over units carrying
both a valid EXTVER and an EXTNAME, seeded with 0 (fits.py:1447,1455-1456). -/
def highest_ver0 (hl : List HUnit) : Int :=
  hl.foldl
    (fun acc u => if validVer u.ver && u.nm.isSome then max acc (u.ver.getD 0) else acc) 0

/-- The second pass of `_prepare_hdulist` (fits.py:1463-1474) over the units
the first pass skipped, threading the `highest_ver` counter: an `ImageHDU`
bumps the counter, receives the default EXTNAME when it has none and the
counter value as EXTVER when its own is absent or -1; any other unit passes
through untouched. -/
def fixup_pass (us : List HUnit) (c : Int) : Int × List HUnit :=
  match us with
  | [] => (c, [])
  | u :: rest =>
      if u.kind == .imageK then
        let c1 := c + 1
        let u1 : HUnit := { u with
          nm := some (u.nm.getD default_extension),
          ver := if validVer u.ver then u.ver else some c1 }
        let r := fixup_pass rest c1
        (r.1, u1 :: r.2)
      else
        let r := fixup_pass rest c
        (r.1, u :: r.2)

/-- `fits_ext_comp_key` (fits.py:1397-1432): the primary HDU gets the
sentinel `(-1, "")`; otherwise the name is decorated (missing → "zzzz",
non-default → "z" prefix) and a missing or -1 EXTVER becomes `2**32 - 1`. -/
def fits_ext_comp_key (u : HUnit) : Int × String :=
  if u.kind == .primaryK then (-1, "")
  else
    let name :=
      match u.nm with
      | none => "zzzz"
      | some s => if s != default_extension then "z" ++ s else s
    match u.ver with
    | none => (4294967295, name)
    | some v => if v = -1 then (4294967295, name) else (v, name)

/-- Boolean comparison of units by their sort key (lexicographic). -/
def keyLEb (u v : HUnit) : Bool :=
  decide ((fits_ext_comp_key u).1 < (fits_ext_comp_key v).1) ||
  (decide ((fits_ext_comp_key u).1 = (fits_ext_comp_key v).1) &&
   decide ((fits_ext_comp_key u).2 ≤ (fits_ext_comp_key v).2))

/-- The sort order used on HDU lists: `fits_ext_comp_key` compared
lexicographically (version first, then decorated name). -/
def keyLE (u v : HUnit) : Prop := keyLEb u v = true

instance : DecidableRel keyLE := fun u v => instDecidableEqBool (keyLEb u v) true

instance : IsTotal HUnit keyLE := ⟨by
  intro a b
  simp only [keyLE, keyLEb, Bool.or_eq_true, Bool.and_eq_true, decide_eq_true_eq]
  rcases lt_trichotomy (fits_ext_comp_key a).1 (fits_ext_comp_key b).1 with h | h | h
  · exact Or.inl (Or.inl h)
  · rcases le_total (fits_ext_comp_key a).2 (fits_ext_comp_key b).2 with h2 | h2
    · exact Or.inl (Or.inr ⟨h, h2⟩)
    · exact Or.inr (Or.inr ⟨h.symm, h2⟩)
  · exact Or.inr (Or.inl h)⟩

instance : IsTrans HUnit keyLE := ⟨by
  intro a b c hab hbc
  simp only [keyLE, keyLEb, Bool.or_eq_true, Bool.and_eq_true, decide_eq_true_eq] at hab hbc ⊢
  rcases hab with h1 | ⟨h1, h2⟩ <;> rcases hbc with h3 | ⟨h3, h4⟩
  · exact Or.inl (lt_trans h1 h3)
  · exact Or.inl (h3 ▸ h1)
  · exact Or.inl (h1 ▸ h3)
  · exact Or.inr ⟨h1.trans h3, le_trans h2 h4⟩⟩

/-- `FitsLoader._prepare_hdulist` (fits.py:1444-1486).  MEF branch
(`len(hdulist) > 1`): first pass keeps the recognized units in file order,
second pass fixes up and appends the rest; the result is sorted by
`fits_ext_comp_key`.  Single-unit branch: a fresh primary plus an image copy
of the unit carrying the default EXTNAME and EXTVER 1.  (The source raises
IndexError on an empty HDUList; real FITS files always have at least one
unit.) -/
def prepare_hdulist (hl : List HUnit) : List HUnit :=
  if 1 < hl.length then
    let pass1 := hl.filter recognized1
    let rest := hl.filter (fun u => !(recognized1 u))
    let fixed := fixup_pass rest (highest_ver0 hl)
    List.insertionSort keyLE (pass1 ++ fixed.2)
  else
    match hl with
    | [] => []
    | u :: _ =>
        List.insertionSort keyLE
          [⟨.primaryK, u.nm, u.ver⟩, ⟨.imageK, some default_extension, some 1⟩]

/-- C7 counterexample: a two-unit list (primary plus a table-like unit with
no EXTNAME) passes through `_prepare_hdulist` with the table still unnamed:
only `ImageHDU` instances receive the default EXTNAME in the second pass, so
NOT every non-primary unit lacking an EXTNAME gets one. -/
theorem C7_counterexample :
    prepare_hdulist [⟨.primaryK, none, none⟩, ⟨.tableK, none, none⟩] =
      [⟨.primaryK, none, none⟩, ⟨.tableK, none, none⟩] ∧
    (⟨.tableK, none, none⟩ : HUnit).kind ≠ .primaryK ∧
    (⟨.tableK, none, none⟩ : HUnit).nm = none := by
  refine ⟨by decide, by decide, rfl⟩

theorem highest_ver0_nonneg_aux (hl : List HUnit) (acc : Int) (h : 0 ≤ acc) :
    0 ≤ hl.foldl
      (fun acc u => if validVer u.ver && u.nm.isSome then max acc (u.ver.getD 0) else acc)
      acc := by
  induction hl generalizing acc with
  | nil => simpa using h
  | cons u rest ih =>
      simp only [List.foldl_cons]
      apply ih
      split
      · exact le_trans h (le_max_left _ _)
      · exact h

theorem highest_ver0_nonneg (hl : List HUnit) : 0 ≤ highest_ver0 hl :=
  highest_ver0_nonneg_aux hl 0 le_rfl

theorem fixup_pass_mem (us : List HUnit) (c : Int) (hc : 0 ≤ c) :
    ∀ u ∈ (fixup_pass us c).2,
      (u ∈ us ∧ u.kind ≠ .imageK) ∨
      (u.kind = .imageK ∧ u.nm.isSome = true ∧ validVer u.ver = true ∧
        (u.nm = some default_extension ∨ ∃ v ∈ us, v.kind = .imageK ∧ v.nm = u.nm)) := by
  induction us generalizing c with
  | nil => intro u hu; simp [fixup_pass] at hu
  | cons w rest ih =>
      intro u hu
      by_cases hw : w.kind = .imageK
      · rw [show fixup_pass (w :: rest) c =
            (let c1 := c + 1
             let u1 : HUnit := { w with
               nm := some (w.nm.getD default_extension),
               ver := if validVer w.ver then w.ver else some c1 }
             let r := fixup_pass rest c1
             (r.1, u1 :: r.2)) from by
          simp only [fixup_pass]
          rw [if_pos (by simp [hw])]] at hu
        simp only [List.mem_cons] at hu
        rcases hu with rfl | hu
        · refine Or.inr ⟨hw, by simp, ?_, ?_⟩
          · by_cases hv : validVer w.ver = true
            · simp [hv]
            · rw [if_neg hv]
              simp only [validVer, bne_iff_ne, ne_eq, decide_eq_true_eq]
              omega
          · cases hnm : w.nm with
            | none => exact Or.inl (by simp [hnm])
            | some s =>
                refine Or.inr ⟨w, List.mem_cons_self _ _, hw, ?_⟩
                simp [hnm]
        · rcases ih (c + 1) (by omega) u hu with ⟨hmem, hk⟩ | ⟨hk, hnm, hv, hor⟩
          · exact Or.inl ⟨List.mem_cons.2 (Or.inr hmem), hk⟩
          · refine Or.inr ⟨hk, hnm, hv, ?_⟩
            rcases hor with h | ⟨v, hvmem, hvk, hvnm⟩
            · exact Or.inl h
            · exact Or.inr ⟨v, List.mem_cons.2 (Or.inr hvmem), hvk, hvnm⟩
      · rw [show fixup_pass (w :: rest) c =
            (let r := fixup_pass rest c
             (r.1, w :: r.2)) from by
          simp only [fixup_pass]
          rw [if_neg (by simp [hw])]] at hu
        simp only [List.mem_cons] at hu
        rcases hu with rfl | hu
        · exact Or.inl ⟨List.mem_cons_self _ _, hw⟩
        · rcases ih c hc u hu with ⟨hmem, hk⟩ | ⟨hk, hnm, hv, hor⟩
          · exact Or.inl ⟨List.mem_cons.2 (Or.inr hmem), hk⟩
          · refine Or.inr ⟨hk, hnm, hv, ?_⟩
            rcases hor with h | ⟨v, hvmem, hvk, hvnm⟩
            · exact Or.inl h
            · exact Or.inr ⟨v, List.mem_cons.2 (Or.inr hvmem), hvk, hvnm⟩

/-- The number of image units among the first `n` entries of a unit list:
the closed form of the `highest_ver += 1` counter increments performed by the
second pass of `_prepare_hdulist` while traversing those entries. -/
def img_count (us : List HUnit) (n : Nat) : Nat :=
  ((us.take n).filter (fun u => u.kind == HKind.imageK)).length

theorem img_count_cons (u : HUnit) (rest : List HUnit) (n : Nat) :
    img_count (u :: rest) (n + 1) =
      (if u.kind == HKind.imageK then 1 else 0) + img_count rest n := by
  simp only [img_count, List.take_succ_cons]
  by_cases hu : (u.kind == HKind.imageK) = true
  · rw [List.filter_cons_of_pos (p := fun v : HUnit => v.kind == HKind.imageK) hu, if_pos hu,
      List.length_cons]
    omega
  · rw [List.filter_cons_of_neg (p := fun v : HUnit => v.kind == HKind.imageK) hu, if_neg hu]
    omega

theorem fixup_pass_snd_cons_image (u : HUnit) (rest : List HUnit) (c : Int)
    (hu : (u.kind == HKind.imageK) = true) :
    (fixup_pass (u :: rest) c).2 =
      { u with nm := some (u.nm.getD default_extension),
               ver := if validVer u.ver = true then u.ver else some (c + 1) }
        :: (fixup_pass rest (c + 1)).2 := by
  simp [fixup_pass, hu]

theorem fixup_pass_snd_cons_other (u : HUnit) (rest : List HUnit) (c : Int)
    (hu : ¬(u.kind == HKind.imageK) = true) :
    (fixup_pass (u :: rest) c).2 = u :: (fixup_pass rest c).2 := by
  simp [fixup_pass, hu]

theorem fixup_pass_length (us : List HUnit) (c : Int) :
    (fixup_pass us c).2.length = us.length := by
  induction us generalizing c with
  | nil => rfl
  | cons u rest ih =>
      by_cases hu : (u.kind == HKind.imageK) = true
      · rw [fixup_pass_snd_cons_image u rest c hu]
        simp [ih]
      · rw [fixup_pass_snd_cons_other u rest c hu]
        simp [ih]

/-- Closed form of the second pass of `_prepare_hdulist`: the unit at
position `k` of the output is the input unit untouched when it is not an
image; an image unit keeps its name or — when it had none — receives exactly
the default extension name, and keeps its EXTVER when valid — otherwise it
receives the counter value `c + (number of image units among the first k+1
inputs)`, i.e. the seed plus the auto-increments performed so far. -/
theorem fixup_pass_getElem (us : List HUnit) (c : Int) (k : Nat) (w : HUnit)
    (hw : us[k]? = some w) :
    (fixup_pass us c).2[k]? =
      some (if w.kind = HKind.imageK then
        { w with nm := some (w.nm.getD default_extension),
                 ver := if validVer w.ver = true then w.ver
                        else some (c + (img_count us (k + 1) : Int)) }
      else w) := by
  induction us generalizing c k with
  | nil => simp at hw
  | cons u rest ih =>
      by_cases hu : (u.kind == HKind.imageK) = true
      · have hk : u.kind = HKind.imageK := beq_iff_eq.mp hu
        rw [fixup_pass_snd_cons_image u rest c hu]
        cases k with
        | zero =>
            rw [List.getElem?_cons_zero] at hw
            have hwu : u = w := Option.some.inj hw
            subst hwu
            rw [List.getElem?_cons_zero, if_pos hk]
            have hcnt : (img_count (u :: rest) (0 + 1) : Int) = 1 := by
              rw [img_count_cons, if_pos hu]
              simp [img_count]
            rw [hcnt]
        | succ k' =>
            rw [List.getElem?_cons_succ] at hw
            rw [List.getElem?_cons_succ, ih (c + 1) k' hw]
            have hcnt : (img_count (u :: rest) (k' + 1 + 1) : Int) =
                1 + (img_count rest (k' + 1) : Int) := by
              rw [img_count_cons, if_pos hu]
              push_cast
              ring
            rw [hcnt]
            have harith : c + (1 + (img_count rest (k' + 1) : Int)) =
                c + 1 + (img_count rest (k' + 1) : Int) := by ring
            rw [harith]
      · have hk : u.kind ≠ HKind.imageK := fun h => hu (beq_iff_eq.mpr h)
        rw [fixup_pass_snd_cons_other u rest c hu]
        cases k with
        | zero =>
            rw [List.getElem?_cons_zero] at hw
            have hwu : u = w := Option.some.inj hw
            subst hwu
            rw [List.getElem?_cons_zero, if_neg hk]
        | succ k' =>
            rw [List.getElem?_cons_succ] at hw
            rw [List.getElem?_cons_succ, ih c k' hw]
            have hcnt : (img_count (u :: rest) (k' + 1 + 1) : Int) =
                (img_count rest (k' + 1) : Int) := by
              rw [img_count_cons, if_neg hu]
              push_cast
              ring
            rw [hcnt]

/-- The running `highest_ver` fold of the first pass: it dominates the EXTVER
of every unit carrying both a valid EXTVER and an EXTNAME, it never drops
below its seed, and it equals either the seed or one of those EXTVERs. -/
theorem highest_ver0_fold (hl : List HUnit) (acc : Int) :
    (∀ u ∈ hl, (validVer u.ver && u.nm.isSome) = true →
      u.ver.getD 0 ≤ hl.foldl
        (fun acc u => if validVer u.ver && u.nm.isSome then max acc (u.ver.getD 0) else acc)
        acc) ∧
    (hl.foldl
        (fun acc u => if validVer u.ver && u.nm.isSome then max acc (u.ver.getD 0) else acc)
        acc = acc ∨
      ∃ u ∈ hl, (validVer u.ver && u.nm.isSome) = true ∧
        u.ver.getD 0 = hl.foldl
          (fun acc u => if validVer u.ver && u.nm.isSome then max acc (u.ver.getD 0) else acc)
          acc) ∧
    acc ≤ hl.foldl
      (fun acc u => if validVer u.ver && u.nm.isSome then max acc (u.ver.getD 0) else acc)
      acc := by
  induction hl generalizing acc with
  | nil => exact ⟨fun u hu => absurd hu (List.not_mem_nil u), Or.inl rfl, le_rfl⟩
  | cons u rest ih =>
      simp only [List.foldl_cons]
      obtain ⟨ih1, ih2, ih3⟩ :=
        ih (if validVer u.ver && u.nm.isSome then max acc (u.ver.getD 0) else acc)
      refine ⟨?_, ?_, ?_⟩
      · intro v hv hcond
        rcases List.mem_cons.1 hv with rfl | hv2
        · refine le_trans ?_ ih3
          rw [if_pos hcond]
          exact le_max_right _ _
        · exact ih1 v hv2 hcond
      · rcases ih2 with heq | ⟨v, hv, hcond2, hver⟩
        · by_cases hcond : (validVer u.ver && u.nm.isSome) = true
          · rw [if_pos hcond] at heq ⊢
            rcases max_choice acc (u.ver.getD 0) with hc | hc
            · exact Or.inl (by rw [heq, hc])
            · exact Or.inr ⟨u, List.mem_cons_self _ _, hcond, by rw [heq, hc]⟩
          · rw [if_neg hcond] at heq ⊢
            exact Or.inl heq
        · exact Or.inr ⟨v, List.mem_cons.2 (Or.inr hv), hcond2, hver⟩
      · refine le_trans ?_ ih3
        split
        · exact le_max_left _ _
        · exact le_rfl

/-- C7 (amended): on a multi-unit HDU list, `_prepare_hdulist` (1) returns
the sorted merge of the recognized first-pass units and the fixed-up
remainder, sorted by `fits_ext_comp_key` — primary carries the sentinel key
`(-1, "")`, others sort by (EXTVER, decorated name) with the default science
name undecorated (sorting before 'z'-decorated names at equal version) and
missing names/versions pushed to the sentinels "zzzz" / 2**32-1; (2) every
IMAGE unit of the result carries an EXTNAME and a valid EXTVER; (3) an image
unit's name is either the default science name or a name already present on
an image unit of the input; (4) non-image units (e.g. tables) pass through
untouched, keeping a missing EXTNAME; (5) the counter seed `highest_ver0` is
the maximum EXTVER over input units carrying both a valid EXTVER and an
EXTNAME (or the seed 0 when there are none); (6) the second pass is
length-preserving and acts pointwise: a skipped image unit lacking an EXTNAME
receives exactly the default science name, and one lacking a valid EXTVER
receives exactly `highest_ver0 + (number of image units among the skipped
units up to and including it)` — the auto-incremented running counter. -/
theorem C7_prepare_hdulist_normalization (hl : List HUnit) (hlen : 2 ≤ hl.length) :
    prepare_hdulist hl =
      List.insertionSort keyLE
        (hl.filter recognized1 ++
          (fixup_pass (hl.filter (fun u => !(recognized1 u))) (highest_ver0 hl)).2) ∧
    List.Sorted keyLE (prepare_hdulist hl) ∧
    (∀ u ∈ prepare_hdulist hl, u.kind = .imageK →
      u.nm.isSome = true ∧ validVer u.ver = true) ∧
    (∀ u ∈ prepare_hdulist hl, u.kind = .imageK →
      u.nm = some default_extension ∨ ∃ v ∈ hl, v.kind = .imageK ∧ v.nm = u.nm) ∧
    (∀ u ∈ prepare_hdulist hl, u.kind ≠ .imageK → u ∈ hl) ∧
    (∀ u ∈ hl, (validVer u.ver && u.nm.isSome) = true →
      u.ver.getD 0 ≤ highest_ver0 hl) ∧
    (highest_ver0 hl = 0 ∨
      ∃ u ∈ hl, (validVer u.ver && u.nm.isSome) = true ∧ u.ver.getD 0 = highest_ver0 hl) ∧
    ((fixup_pass (hl.filter (fun u => !(recognized1 u))) (highest_ver0 hl)).2.length =
      (hl.filter (fun u => !(recognized1 u))).length) ∧
    (∀ (k : Nat) (w : HUnit), (hl.filter (fun u => !(recognized1 u)))[k]? = some w →
      (fixup_pass (hl.filter (fun u => !(recognized1 u))) (highest_ver0 hl)).2[k]? =
        some (if w.kind = HKind.imageK then
          { w with
            nm := some (w.nm.getD default_extension),
            ver := if validVer w.ver = true then w.ver
                   else some (highest_ver0 hl +
                     (img_count (hl.filter (fun u => !(recognized1 u))) (k + 1) : Int)) }
        else w)) := by
  have hbranch : prepare_hdulist hl =
      List.insertionSort keyLE
        (hl.filter recognized1 ++
          (fixup_pass (hl.filter (fun u => !(recognized1 u))) (highest_ver0 hl)).2) := by
    unfold prepare_hdulist
    rw [if_pos (by omega)]
  have hmem : ∀ u ∈ prepare_hdulist hl,
      u ∈ hl.filter recognized1 ∨
      u ∈ (fixup_pass (hl.filter (fun u => !(recognized1 u))) (highest_ver0 hl)).2 := by
    intro u hu
    rw [hbranch] at hu
    have := (List.perm_insertionSort keyLE _).mem_iff.1 hu
    exact List.mem_append.1 this
  refine ⟨hbranch, ?_, ?_, ?_, ?_, (highest_ver0_fold hl 0).1, (highest_ver0_fold hl 0).2.1,
    fixup_pass_length _ _, fun k w hw => fixup_pass_getElem _ _ k w hw⟩
  · rw [hbranch]
    exact List.sorted_insertionSort keyLE _
  · intro u hu hk
    rcases hmem u hu with h | h
    · have hrec := (List.mem_filter.1 h).2
      simp only [recognized1, Bool.or_eq_true, Bool.and_eq_true, beq_iff_eq] at hrec
      rcases hrec with ⟨hv, hn⟩ | hprim
      · exact ⟨hn, hv⟩
      · rw [hk] at hprim; exact HKind.noConfusion hprim
    · rcases fixup_pass_mem _ _ (highest_ver0_nonneg hl) u h with ⟨-, hne⟩ | ⟨-, hn, hv, -⟩
      · exact absurd hk hne
      · exact ⟨hn, hv⟩
  · intro u hu hk
    rcases hmem u hu with h | h
    · exact Or.inr ⟨u, (List.mem_filter.1 h).1, hk, rfl⟩
    · rcases fixup_pass_mem _ _ (highest_ver0_nonneg hl) u h with ⟨-, hne⟩ | ⟨-, -, -, hor⟩
      · exact absurd hk hne
      · rcases hor with hdef | ⟨v, hvmem, hvk, hvnm⟩
        · exact Or.inl hdef
        · exact Or.inr ⟨v, (List.mem_filter.1 hvmem).1, hvk, hvnm⟩
  · intro u hu hk
    rcases hmem u hu with h | h
    · exact (List.mem_filter.1 h).1
    · rcases fixup_pass_mem _ _ (highest_ver0_nonneg hl) u h with ⟨hmem2, -⟩ | ⟨hik, -, -, -⟩
      · exact (List.mem_filter.1 hmem2).1
      · exact absurd hik hk

/-- C7 witness: a primary plus one anonymous image unit form a 2-unit list;
the normalized output is sorted by the comparison key, and the skipped image
unit at position 0 of the second pass receives the default science name and
EXTVER `highest_ver0 + 1 = 1` by the pointwise assignment rule. -/
theorem C7_prepare_hdulist_normalization_witness :
    2 ≤ ([⟨.primaryK, none, none⟩, ⟨.imageK, none, none⟩] : List HUnit).length ∧
    List.Sorted keyLE (prepare_hdulist [⟨.primaryK, none, none⟩, ⟨.imageK, none, none⟩]) ∧
    (fixup_pass
        (([⟨.primaryK, none, none⟩, ⟨.imageK, none, none⟩] : List HUnit).filter
          (fun u => !(recognized1 u)))
        (highest_ver0 [⟨.primaryK, none, none⟩, ⟨.imageK, none, none⟩])).2[0]? =
      some ⟨.imageK, some default_extension, some 1⟩ := by
  have h := C7_prepare_hdulist_normalization
    [⟨.primaryK, none, none⟩, ⟨.imageK, none, none⟩] (by decide)
  refine ⟨by decide, h.2.1, ?_⟩
  have h9 := h.2.2.2.2.2.2.2.2 0 ⟨.imageK, none, none⟩ (by decide)
  rw [h9]
  rfl

end AstrodataFits
